import Mathlib

/-!
Verification of the log-parsing / feature-building / anomaly-labeling pipeline
of `pytorch_model.py` (dedsecAI).

The script's pure computational core is embedded shallowly:

* `parse_log_line` embeds the regex search
  `(\d{4}-\d{2}-\d{2} \d{2}:\d{2}:\d{2}).*?(\bHRESULT = 0x[0-9a-fA-F]+|\bError\b|\bWarning\b)`
  together with `datetime.strptime(..., "%Y-%m-%d %H:%M:%S")` and
  `datetime.timestamp()` (modeled as UTC epoch seconds, `Int`).
  A raised `ValueError` is modeled as `Except.error`.
* `loadCbsLog` embeds `load_cbs_log` (line cap, per-line parsing, insertion-ordered
  dict registry `error_map`, counter dict `frequencies`, and the final
  `[frequencies[c] for c in error_codes]` column).
* `percentile95` embeds `np.percentile(_, 95)` (linear interpolation between order
  statistics) and `anomalyLabels` embeds `(errors > threshold).astype(int)`.
* `popMean`/`popVar`/`standardizeCol` embed `StandardScaler.fit_transform`
  column-wise (population variance, zero-variance columns get scale 1);
  float columns are modeled as rationals, the scale (a square root) lives in `ℝ`.
-/

namespace DedsecAI

/-! ### Character classes (ASCII fragment of Python `re`) -/

def isDigitC (c : Char) : Bool := '0' ≤ c && c ≤ '9'

def isHexC (c : Char) : Bool :=
  isDigitC c || ('a' ≤ c && c ≤ 'f') || ('A' ≤ c && c ≤ 'F')

/-- Python regex word character `\w` (ASCII fragment). -/
def isWordC (c : Char) : Bool :=
  isDigitC c || ('a' ≤ c && c ≤ 'z') || ('A' ≤ c && c ≤ 'Z') || c = '_'

/-! ### The event regex -/

/-- Match a literal character sequence, returning the remainder. -/
def stripLit : List Char → List Char → Option (List Char)
  | [], s => some s
  | _ :: _, [] => none
  | c :: cs, d :: ds => if d = c then stripLit cs ds else none

/-- Group 1: `\d{4}-\d{2}-\d{2} \d{2}:\d{2}:\d{2}` (fixed 19 characters).
Returns the matched characters and the remainder. -/
def tsShape (s : List Char) : Option (List Char × List Char) :=
  match s with
  | a :: b :: c :: d :: e :: f :: g :: h :: i :: j :: k :: l :: m :: n :: o :: p :: q :: r :: t :: rest =>
    if isDigitC a && isDigitC b && isDigitC c && isDigitC d && (e = '-') &&
       isDigitC f && isDigitC g && (h = '-') && isDigitC i && isDigitC j &&
       (k = ' ') && isDigitC l && isDigitC m && (n = ':') && isDigitC o &&
       isDigitC p && (q = ':') && isDigitC r && isDigitC t then
      some ([a, b, c, d, e, f, g, h, i, j, k, l, m, n, o, p, q, r, t], rest)
    else none
  | _ => none

/-- Alternative `\bHRESULT = 0x[0-9a-fA-F]+` (the leading boundary is checked by
the caller); the matched text includes the literal head and the greedy hex run. -/
def matchHresult (s : List Char) : Option (List Char) :=
  match stripLit "HRESULT = 0x".data s with
  | none => none
  | some rest =>
    let hex := rest.takeWhile isHexC
    if hex.isEmpty then none else some ("HRESULT = 0x".data ++ hex)

/-- Alternative `\bError\b` / `\bWarning\b`: literal word with a trailing word
boundary (the leading boundary is checked by the caller). -/
def matchWordMarker (lit : List Char) (s : List Char) : Option (List Char) :=
  match stripLit lit s with
  | none => none
  | some rest =>
    match rest with
    | [] => some lit
    | c :: _ => if isWordC c then none else some lit

/-- Group 2 `(\bHRESULT = 0x[0-9a-fA-F]+|\bError\b|\bWarning\b)` at the current
position, given the preceding character `prev` (every alternative starts with a
word boundary, and the first marker character is a word character, so the
boundary holds iff `prev` is not a word character). Alternatives are tried in
the regex's left-to-right order. -/
def matchMarker (prev : Char) (s : List Char) : Option (List Char) :=
  if isWordC prev then none
  else
    match matchHresult s with
    | some t => some t
    | none =>
      match matchWordMarker "Error".data s with
      | some t => some t
      | none => matchWordMarker "Warning".data s

/-- The lazy gap `.*?` followed by group 2: the marker at the *least* offset is
taken; gap characters cannot be `'\n'` (`.` does not match a newline). -/
def findMarker (prev : Char) : List Char → Option (List Char)
  | [] => matchMarker prev []
  | c :: cs =>
    match matchMarker prev (c :: cs) with
    | some t => some t
    | none => if c = '\n' then none else findMarker c cs

/-- The character preceding the gap: the timestamp's final character (always a
digit, hence a word character). -/
def lastDigit (ts : List Char) : Char := ts.getLastD '0'

/-- A full-pattern match anchored at the current position. -/
def tryMatchAt (s : List Char) : Option (List Char × List Char) :=
  match tsShape s with
  | none => none
  | some (ts, rest) =>
    match findMarker (lastDigit ts) rest with
    | none => none
    | some code => some (ts, code)

/-- `re.search`: the match at the least starting position wins. -/
def searchEvent : List Char → Option (List Char × List Char)
  | [] => tryMatchAt []
  | c :: cs =>
    match tryMatchAt (c :: cs) with
    | some r => some r
    | none => searchEvent cs

/-! ### `datetime.strptime` and `datetime.timestamp` -/

def digitsToNat (l : List Char) : ℕ :=
  l.foldl (fun n c => n * 10 + (c.toNat - 48)) 0

/-- The six numeric fields of the 19-character group-1 text. -/
def tsFields (ts : List Char) : ℕ × ℕ × ℕ × ℕ × ℕ × ℕ :=
  (digitsToNat (ts.take 4), digitsToNat ((ts.drop 5).take 2),
   digitsToNat ((ts.drop 8).take 2), digitsToNat ((ts.drop 11).take 2),
   digitsToNat ((ts.drop 14).take 2), digitsToNat ((ts.drop 17).take 2))

def isLeapYear (y : ℕ) : Bool := (y % 4 = 0 && y % 100 ≠ 0) || y % 400 = 0

def monthLengths (y : ℕ) : List ℕ :=
  [31, if isLeapYear y then 29 else 28, 31, 30, 31, 30, 31, 31, 30, 31, 30, 31]

def daysInMonth (y m : ℕ) : ℕ := (monthLengths y).getD (m - 1) 31

/-- `datetime.strptime(_, "%Y-%m-%d %H:%M:%S")` succeeds on a 19-character
digit-shaped text exactly when all fields are in range: the `%m`/`%d`/`%H`/`%M`
sub-regexes reject out-of-range two-digit fields (a partial single-digit match
then fails on the following separator), and the `datetime` constructor rejects
day overflow, year 0 and leap seconds (`%S` alone would admit 60 and 61). -/
def validFields : ℕ × ℕ × ℕ × ℕ × ℕ × ℕ → Bool
  | (y, mo, d, hh, mi, ss) =>
    1 ≤ y && y ≤ 9999 && 1 ≤ mo && mo ≤ 12 && 1 ≤ d && d ≤ daysInMonth y mo &&
    hh ≤ 23 && mi ≤ 59 && ss ≤ 59

def strptimeTs (ts : List Char) : Option (ℕ × ℕ × ℕ × ℕ × ℕ × ℕ) :=
  let f := tsFields ts
  if validFields f then some f else none

def leapsBefore (y : ℕ) : ℕ := (y - 1) / 4 - (y - 1) / 100 + (y - 1) / 400

def daysBeforeYear (y : ℕ) : ℕ := 365 * (y - 1) + leapsBefore y

def daysFromCivil (y m d : ℕ) : ℕ :=
  daysBeforeYear y + ((monthLengths y).take (m - 1)).sum + (d - 1)

/-- `datetime.timestamp()`, modeled as UTC epoch seconds. -/
def toEpoch : ℕ × ℕ × ℕ × ℕ × ℕ × ℕ → ℤ
  | (y, mo, d, hh, mi, ss) =>
    86400 * ((daysFromCivil y mo d : ℤ) - (daysFromCivil 1970 1 1 : ℤ)) +
      3600 * hh + 60 * mi + ss

/-- `parse_log_line`: `Except.error` models the `ValueError` that
`datetime.strptime` raises, `Option` models the `(None, None)` outcome. -/
def parse_log_line (line : String) : Except String (Option (ℤ × String)) :=
  match searchEvent line.data with
  | none => Except.ok none
  | some (ts, code) =>
    match strptimeTs ts with
    | none => Except.error "ValueError: time data does not match format"
    | some f => Except.ok (some (toEpoch f, String.mk code))

/-! ### `load_cbs_log` -/

/-- Lookup in an insertion-ordered association list (Python `dict` access). -/
def alookupS (c : String) : List (String × ℕ) → Option ℕ
  | [] => none
  | (d, v) :: m => if d = c then some v else alookupS c m

def alookupN (k : ℕ) : List (ℕ × ℕ) → Option ℕ
  | [] => none
  | (d, v) :: m => if d = k then some v else alookupN k m

/-- `frequencies[error_id] = frequencies.get(error_id, 0) + 1` on an
insertion-ordered dict: update in place, or append a fresh key. -/
def bump (k : ℕ) : List (ℕ × ℕ) → List (ℕ × ℕ)
  | [] => [(k, 1)]
  | (d, v) :: m => if d = k then (d, v + 1) :: m else (d, v) :: bump k m

/-- The loop state of `load_cbs_log`: the four growing containers. -/
structure LoadState where
  timestamps : List ℤ
  errorCodes : List ℕ
  errorMap : List (String × ℕ)
  frequencies : List (ℕ × ℕ)
  deriving Repr, DecidableEq

def initState : LoadState := ⟨[], [], [], []⟩

/-- One iteration of the scan loop; a `ValueError` from `parse_log_line`
aborts the whole load. -/
def processLine (st : LoadState) (line : String) : Except String LoadState :=
  match parse_log_line line with
  | Except.error e => Except.error e
  | Except.ok none => Except.ok st
  | Except.ok (some (t, code)) =>
    let m := match alookupS code st.errorMap with
      | some _ => st.errorMap
      | none => st.errorMap ++ [(code, st.errorMap.length + 1)]
    let id := (alookupS code m).getD 0
    Except.ok ⟨st.timestamps ++ [t], st.errorCodes ++ [id], m, bump id st.frequencies⟩

def runLines (st : LoadState) : List String → Except String LoadState
  | [] => Except.ok st
  | l :: ls =>
    match processLine st l with
    | Except.error e => Except.error e
    | Except.ok st' => runLines st' ls

/-- `load_cbs_log(file_path, max_lines)` on the file's lines: scan the first
`cap` lines, then build the per-row frequency column from the finished
`frequencies` dict. Returns `(timestamps, error_codes, log_frequencies)`. -/
def loadCbsLog (lines : List String) (cap : ℕ) :
    Except String (List ℤ × List ℕ × List ℕ) :=
  match runLines initState (lines.take cap) with
  | Except.error e => Except.error e
  | Except.ok st =>
    Except.ok (st.timestamps, st.errorCodes,
      st.errorCodes.map (fun id => (alookupN id st.frequencies).getD 0))

/-- `np.column_stack((timestamps, error_codes, log_frequencies))`: one row per
event, columns in that fixed order. -/
def columnStack3 (ts : List ℤ) (ids fs : List ℕ) : List (ℤ × ℕ × ℕ) :=
  ts.zip (ids.zip fs)

/-! ### State-free description of the scan (for refinement) -/

/-- The events `parse_log_line` yields on the scanned lines (defined when no
line raises). -/
def eventsOf (ls : List String) : List (ℤ × String) :=
  ls.filterMap fun l =>
    match parse_log_line l with
    | Except.ok (some e) => some e
    | _ => none

def codesOf (ls : List String) : List String := (eventsOf ls).map Prod.snd

/-- Does `parse_log_line` yield an event on this line? -/
def isEventLine (l : String) : Bool :=
  match parse_log_line l with
  | Except.ok (some _) => true
  | _ => false

/-- The distinct codes in first-occurrence order. -/
def firstOcc (cs : List String) : List String :=
  cs.foldl (fun acc c => if c ∈ acc then acc else acc ++ [c]) []

def firstIdx (c : String) : List String → ℕ
  | [] => 0
  | d :: ds => if d = c then 0 else firstIdx c ds + 1

/-- The ID `error_map` assigns to `c`: 1-based rank of its first occurrence. -/
def rankOf (c : String) (codes : List String) : ℕ :=
  firstIdx c (firstOcc codes) + 1

def idTableAux (n : ℕ) : List String → List (String × ℕ)
  | [] => []
  | c :: cs => (c, n) :: idTableAux (n + 1) cs

def idTable (codes : List String) : List (String × ℕ) :=
  idTableAux 1 (firstOcc codes)

def freqTableAux (codes : List String) (n : ℕ) : List String → List (ℕ × ℕ)
  | [] => []
  | c :: cs => (n, codes.count c) :: freqTableAux codes (n + 1) cs

def freqTable (codes : List String) : List (ℕ × ℕ) :=
  freqTableAux codes 1 (firstOcc codes)

/-- Closed form of the loop state after scanning `ls` without error. -/
def stateSpec (evs : List (ℤ × String)) : LoadState :=
  ⟨evs.map Prod.fst,
   (evs.map Prod.snd).map (fun c => rankOf c (evs.map Prod.snd)),
   idTable (evs.map Prod.snd),
   freqTable (evs.map Prod.snd)⟩

/-- Closed form of `load_cbs_log`'s successful output. -/
def loadSpec (lines : List String) (cap : ℕ) : List ℤ × List ℕ × List ℕ :=
  ((eventsOf (lines.take cap)).map Prod.fst,
   (codesOf (lines.take cap)).map (fun c => rankOf c (codesOf (lines.take cap))),
   (codesOf (lines.take cap)).map (fun c => (codesOf (lines.take cap)).count c))

/-- Sum of the values of the `frequencies` dict. -/
def sumVals (m : List (ℕ × ℕ)) : ℕ := (m.map Prod.snd).sum

/-! ### `StandardScaler.fit_transform`, column-wise -/

def popMean (c : List ℚ) : ℚ := c.sum / c.length

/-- Population variance (`ddof=0`), as `StandardScaler` computes it. -/
def popVar (c : List ℚ) : ℚ :=
  (c.map fun x => (x - popMean c) ^ 2).sum / c.length

/-- `scale_`: the standard deviation, with zero replaced by 1
(`_handle_zeros_in_scale`). The square root forces this layer into `ℝ`. -/
noncomputable def scaleOf (c : List ℚ) : ℝ :=
  if popVar c = 0 then 1 else Real.sqrt ((popVar c : ℚ) : ℝ)

/-- One column of `scaler.fit_transform(X)`. -/
noncomputable def standardizeCol (c : List ℚ) : List ℝ :=
  c.map fun x => (((x : ℚ) : ℝ) - ((popMean c : ℚ) : ℝ)) / scaleOf c

noncomputable def rMean (l : List ℝ) : ℝ := l.sum / l.length

noncomputable def rVar (l : List ℝ) : ℝ :=
  (l.map fun x => (x - rMean l) ^ 2).sum / l.length

/-! ### `np.percentile(_, 95)` and the anomaly labels -/

/-- `np.percentile(a, 95)` with the default linear interpolation: with
`h = 0.95 * (n - 1)`, the value is
`s[⌊h⌋] + (h - ⌊h⌋) * (s[⌈h⌉] - s[⌊h⌋])` over the ascending sort `s`. -/
def percentile95 (l : List ℚ) : ℚ :=
  let s := l.insertionSort (· ≤ ·)
  let m := l.length - 1
  let fh := 95 * m / 100
  let ch := (95 * m + 99) / 100
  let h : ℚ := (95 * m : ℕ) / 100
  s.getD fh 0 + (h - fh) * (s.getD ch 0 - s.getD fh 0)

/-- `threshold = np.percentile(train_errors, 95)`;
`y = (errors > threshold).astype(int)` for the train and test error vectors,
`true` standing for label 1. -/
def anomalyLabels (trainErrors testErrors : List ℚ) : List Bool × List Bool :=
  let t := percentile95 trainErrors
  (trainErrors.map fun e => decide (t < e), testErrors.map fun e => decide (t < e))

/-- The shape of every group-2 match: the `HRESULT = 0x` head is kept, or the
text is exactly one of the two keywords. -/
def markerShapeP (code : List Char) : Prop :=
  code.take 12 = "HRESULT = 0x".data ∨ code = "Error".data ∨ code = "Warning".data

/-- The character preceding the gap offset `g`: the timestamp's last character
for `g = 0`, else the last consumed gap character. -/
def prevAt (prev : Char) (s : List Char) (g : ℕ) : Char :=
  (prev :: s).getD g '0'

/-- Does some position of the line carry a pattern match whose timestamp also
passes strict parsing (i.e. the line "contains a valid timestamp followed by a
marker")? -/
def containsValidEvent (line : String) : Bool :=
  (List.range (line.length + 1)).any fun p =>
    match tryMatchAt (line.data.drop p) with
    | some (ts, _) => (strptimeTs ts).isSome
    | none => false

/-! ### Concrete inputs used by witnesses and counterexamples -/

/-- A line whose leftmost pattern match has an unparseable timestamp while a
fully valid event occurs later on the same line. -/
def cexLine : String := "9999-99-99 99:99:99 x 2020-01-01 00:00:00 Error"

def demoLine : String := "2020-01-02 03:04:05 CSI 00000001 HRESULT = 0xc0150004 blah"

def badTsLine : String := "2021-13-01 10:00:00 Error"

def twoMarkerLine : String := "2020-01-01 00:00:00 Warning and Error"

def demoLog : List String :=
  ["2020-01-01 00:00:00 Error x", "junk line",
   "2020-01-01 00:00:01 Warning", "2020-01-01 00:00:02 Error y"]

/-- A ten-event log whose timestamp column has a non-integer mean, so *no*
row equals the column mean. -/
def cexLog : List String :=
  ["2020-01-01 00:00:00 Error", "2020-01-01 00:00:01 Error",
   "2020-01-01 00:00:02 Error", "2020-01-01 00:00:03 Error",
   "2020-01-01 00:00:04 Error", "2020-01-01 00:00:05 Error",
   "2020-01-01 00:00:06 Error", "2020-01-01 00:00:07 Error",
   "2020-01-01 00:00:08 Error", "2020-01-01 00:00:20 Error"]

def cexTs : List ℤ :=
  [1577836800, 1577836801, 1577836802, 1577836803, 1577836804, 1577836805,
   1577836806, 1577836807, 1577836808, 1577836820]

def cexTsQ : List ℚ := cexTs.map fun t => (t : ℚ)

/-! ### Parser lemmas -/

theorem matchHresult_shape {s t : List Char} (h : matchHresult s = some t) :
    t.take 12 = "HRESULT = 0x".data := by
  unfold matchHresult at h
  rcases hs : stripLit "HRESULT = 0x".data s with _ | rest <;> rw [hs] at h
  · exact absurd h (by simp)
  · simp only at h
    split at h
    · exact absurd h (by simp)
    · have ht : "HRESULT = 0x".data ++ rest.takeWhile isHexC = t := Option.some.inj h
      have hl : ("HRESULT = 0x".data).length = 12 := rfl
      rw [← ht, ← hl, List.take_left]

theorem matchWordMarker_shape {lit s t : List Char}
    (h : matchWordMarker lit s = some t) : t = lit := by
  unfold matchWordMarker at h
  rcases hs : stripLit lit s with _ | rest <;> rw [hs] at h
  · exact absurd h (by simp)
  · rcases rest with _ | ⟨c, cs⟩
    · exact (Option.some.inj h).symm
    · simp only at h
      split at h
      · exact absurd h (by simp)
      · exact (Option.some.inj h).symm

theorem matchMarker_shape {prev : Char} {s t : List Char}
    (h : matchMarker prev s = some t) : markerShapeP t := by
  unfold matchMarker at h
  split at h
  · exact absurd h (by simp)
  · rcases h1 : matchHresult s with _ | t1 <;> rw [h1] at h
    · rcases h2 : matchWordMarker "Error".data s with _ | t2 <;> rw [h2] at h
      · exact Or.inr (Or.inr (matchWordMarker_shape h))
      · exact Or.inr (Or.inl ((Option.some.inj h) ▸ matchWordMarker_shape h2))
    · exact Or.inl ((Option.some.inj h) ▸ matchHresult_shape h1)

theorem findMarker_shape {prev : Char} {s t : List Char}
    (h : findMarker prev s = some t) : markerShapeP t := by
  induction s generalizing prev with
  | nil => exact matchMarker_shape h
  | cons c cs ih =>
    unfold findMarker at h
    split at h
    · next t1 heq => exact (Option.some.inj h) ▸ matchMarker_shape heq
    · split at h
      · exact absurd h (by simp)
      · exact ih h

theorem tryMatchAt_shape {s : List Char} {ts code : List Char}
    (h : tryMatchAt s = some (ts, code)) : markerShapeP code := by
  unfold tryMatchAt at h
  rcases h1 : tsShape s with _ | ⟨ts', rest⟩ <;> rw [h1] at h
  · exact absurd h (by simp)
  · simp only at h
    rcases h2 : findMarker (lastDigit ts') rest with _ | code' <;> rw [h2] at h
    · exact absurd h (by simp)
    · cases h
      exact findMarker_shape h2

/-- `re.search` finds a match iff the pattern matches at some position. -/
theorem searchEvent_eq_none_iff (s : List Char) :
    searchEvent s = none ↔ ∀ p, tryMatchAt (s.drop p) = none := by
  induction s with
  | nil =>
    simp only [searchEvent, List.drop_nil]
    exact ⟨fun h _ => h, fun h => h 0⟩
  | cons c cs ih =>
    constructor
    · intro h p
      unfold searchEvent at h
      rcases h1 : tryMatchAt (c :: cs) with _ | r <;> rw [h1] at h
      · cases p with
        | zero => exact h1
        | succ p => exact (ih.mp h) p
      · exact absurd h (by simp)
    · intro h
      unfold searchEvent
      have h0 : tryMatchAt (c :: cs) = none := h 0
      rw [h0]
      exact ih.mpr fun p => h (p + 1)

theorem searchEvent_some_exists {s : List Char} {r : List Char × List Char}
    (h : searchEvent s = some r) : ∃ p, tryMatchAt (s.drop p) = some r := by
  induction s with
  | nil => exact ⟨0, h⟩
  | cons c cs ih =>
    unfold searchEvent at h
    rcases h1 : tryMatchAt (c :: cs) with _ | r' <;> rw [h1] at h
    · obtain ⟨p, hp⟩ := ih h
      exact ⟨p + 1, hp⟩
    · exact ⟨0, h1 ▸ h⟩

/-- The lazy quantifier `.*?` takes the *least* gap at which group 2 matches:
no shorter gap admits a marker, and the consumed gap contains no newline. -/
theorem findMarker_min {prev : Char} {s code : List Char}
    (h : findMarker prev s = some code) :
    ∃ g, g ≤ s.length ∧ matchMarker (prevAt prev s g) (s.drop g) = some code ∧
      (∀ j, j < g → matchMarker (prevAt prev s j) (s.drop j) = none) ∧
      (∀ j, j < g → s.getD j ' ' ≠ '\n') := by
  induction s generalizing prev with
  | nil =>
    exact ⟨0, Nat.le_refl 0, h, fun j hj => absurd hj (Nat.not_lt_zero j),
      fun j hj => absurd hj (Nat.not_lt_zero j)⟩
  | cons c cs ih =>
    unfold findMarker at h
    split at h
    · next t1 heq =>
      cases h
      exact ⟨0, Nat.zero_le _, heq, fun j hj => absurd hj (Nat.not_lt_zero j),
        fun j hj => absurd hj (Nat.not_lt_zero j)⟩
    · next heq =>
      split at h
      · exact absurd h (by simp)
      · next hc =>
        obtain ⟨g, hg, hm, hmin, hgap⟩ := ih h
        refine ⟨g + 1, Nat.succ_le_succ hg, hm, ?_, ?_⟩
        · intro j hj
          cases j with
          | zero => exact heq
          | succ j => exact hmin j (Nat.lt_of_succ_lt_succ hj)
        · intro j hj
          cases j with
          | zero => exact hc
          | succ j => exact hgap j (Nat.lt_of_succ_lt_succ hj)

/-! ### Loader error propagation -/

theorem processLine_ok_of_parse_ok {st st' : LoadState} {l : String}
    (h : processLine st l = Except.ok st') :
    ∀ e, parse_log_line l ≠ Except.error e := by
  intro e he
  unfold processLine at h
  rw [he] at h
  exact absurd h (by simp)

/-- A `ValueError` on any scanned line is fatal: the scan never completes. -/
theorem runLines_ne_ok_of_error {ls : List String} {l : String} {e : String}
    (hmem : l ∈ ls) (he : parse_log_line l = Except.error e) :
    ∀ st st', runLines st ls ≠ Except.ok st' := by
  induction ls with
  | nil => cases hmem
  | cons x xs ih =>
    intro st st' h
    unfold runLines at h
    rcases h1 : processLine st x with e' | st1 <;> rw [h1] at h
    · exact absurd h (by simp)
    · rcases List.mem_cons.mp hmem with rfl | hmem'
      · exact processLine_ok_of_parse_ok h1 e he
      · exact ih hmem' st1 st' h

/-! ### Registry / frequency-table lemmas -/

theorem mem_foldl_firstOcc (cs : List String) (acc : List String) (x : String) :
    x ∈ cs.foldl (fun acc c => if c ∈ acc then acc else acc ++ [c]) acc ↔
      x ∈ acc ∨ x ∈ cs := by
  induction cs generalizing acc with
  | nil => simp
  | cons c cs ih =>
    simp only [List.foldl_cons, ih, List.mem_cons]
    split
    · next hc =>
      constructor
      · rintro (hx | hx)
        · exact Or.inl hx
        · exact Or.inr (Or.inr hx)
      · rintro (hx | rfl | hx)
        · exact Or.inl hx
        · exact Or.inl hc
        · exact Or.inr hx
    · simp only [List.mem_append, List.mem_singleton]
      constructor
      · rintro ((hx | rfl) | hx)
        · exact Or.inl hx
        · exact Or.inr (Or.inl rfl)
        · exact Or.inr (Or.inr hx)
      · rintro (hx | rfl | hx)
        · exact Or.inl (Or.inl hx)
        · exact Or.inl (Or.inr rfl)
        · exact Or.inr hx

theorem mem_firstOcc (codes : List String) (x : String) :
    x ∈ firstOcc codes ↔ x ∈ codes := by
  unfold firstOcc
  rw [mem_foldl_firstOcc]
  simp

theorem nodup_foldl_firstOcc (cs : List String) (acc : List String)
    (h : acc.Nodup) :
    (cs.foldl (fun acc c => if c ∈ acc then acc else acc ++ [c]) acc).Nodup := by
  induction cs generalizing acc with
  | nil => exact h
  | cons c cs ih =>
    simp only [List.foldl_cons]
    split
    · exact ih acc h
    · next hc =>
      refine ih _ ?_
      simp [List.nodup_append, h, hc]

theorem nodup_firstOcc (codes : List String) : (firstOcc codes).Nodup :=
  nodup_foldl_firstOcc codes [] List.nodup_nil

theorem firstOcc_append_one (codes : List String) (c : String) :
    firstOcc (codes ++ [c]) =
      if c ∈ codes then firstOcc codes else firstOcc codes ++ [c] := by
  unfold firstOcc
  rw [List.foldl_append]
  simp only [List.foldl_cons, List.foldl_nil]
  by_cases hc : c ∈ codes
  · rw [if_pos ((mem_foldl_firstOcc codes [] c).mpr (Or.inr hc)), if_pos hc]
  · rw [if_neg (fun h => hc (((mem_foldl_firstOcc codes [] c).mp h).resolve_left
      (by simp))), if_neg hc]

theorem firstIdx_append_left {c : String} {l : List String} (l' : List String)
    (h : c ∈ l) : firstIdx c (l ++ l') = firstIdx c l := by
  induction l with
  | nil => cases h
  | cons d ds ih =>
    simp only [List.cons_append, firstIdx, List.append_eq]
    split
    · rfl
    · next hd =>
      rcases List.mem_cons.mp h with rfl | h'
      · exact absurd rfl hd
      · rw [ih h']

theorem firstIdx_append_self {c : String} {l : List String} (h : c ∉ l) :
    firstIdx c (l ++ [c]) = l.length := by
  induction l with
  | nil => simp [firstIdx]
  | cons d ds ih =>
    simp only [List.cons_append, firstIdx, List.length_cons, List.append_eq]
    split
    · next hd => exact absurd (hd ▸ List.mem_cons_self d ds) h
    · rw [ih fun hc => h (List.mem_cons_of_mem d hc)]

theorem firstIdx_lt_length {c : String} {l : List String} (h : c ∈ l) :
    firstIdx c l < l.length := by
  induction l with
  | nil => cases h
  | cons d ds ih =>
    simp only [firstIdx, List.length_cons]
    split
    · exact Nat.succ_pos _
    · next hd =>
      rcases List.mem_cons.mp h with rfl | h'
      · exact absurd rfl hd
      · exact Nat.succ_lt_succ (ih h')

theorem getD_firstIdx {c : String} {l : List String} (h : c ∈ l) (d : String) :
    l.getD (firstIdx c l) d = c := by
  induction l with
  | nil => cases h
  | cons e es ih =>
    simp only [firstIdx]
    split
    · next he => simpa using he
    · next he =>
      rcases List.mem_cons.mp h with rfl | h'
      · exact absurd rfl he
      · simpa using ih h'

theorem firstIdx_inj {c d : String} {l : List String} (hc : c ∈ l) (hd : d ∈ l)
    (h : firstIdx c l = firstIdx d l) : c = d := by
  have h1 := getD_firstIdx hc ""
  have h2 := getD_firstIdx hd ""
  rw [← h1, ← h2, h]

theorem rankOf_stable {d : String} {codes : List String} (c : String)
    (hd : d ∈ codes) : rankOf d (codes ++ [c]) = rankOf d codes := by
  unfold rankOf
  rw [firstOcc_append_one]
  split
  · rfl
  · rw [firstIdx_append_left _ ((mem_firstOcc codes d).mpr hd)]

theorem idTableAux_append (n : ℕ) (l l' : List String) :
    idTableAux n (l ++ l') = idTableAux n l ++ idTableAux (n + l.length) l' := by
  induction l generalizing n with
  | nil => simp [idTableAux]
  | cons c cs ih =>
    simp only [List.cons_append, idTableAux, List.length_cons, List.append_eq]
    rw [ih (n + 1), show n + 1 + cs.length = n + (cs.length + 1) by omega]

theorem idTableAux_length (n : ℕ) (l : List String) :
    (idTableAux n l).length = l.length := by
  induction l generalizing n with
  | nil => rfl
  | cons c cs ih => simp [idTableAux, ih]

theorem idTableAux_snd (n : ℕ) (l : List String) :
    (idTableAux n l).map Prod.snd = List.range' n l.length := by
  induction l generalizing n with
  | nil => rfl
  | cons c cs ih => simp [idTableAux, ih, List.range']

theorem alookupS_idTableAux_of_mem {c : String} {l : List String} (h : c ∈ l)
    (n : ℕ) : alookupS c (idTableAux n l) = some (n + firstIdx c l) := by
  induction l generalizing n with
  | nil => cases h
  | cons d ds ih =>
    simp only [idTableAux, alookupS, firstIdx]
    split
    · next hd => simp [hd]
    · next hd =>
      rcases List.mem_cons.mp h with rfl | h'
      · exact absurd rfl hd
      · rw [ih h' (n + 1)]
        congr 1
        omega

theorem alookupS_idTableAux_of_not_mem {c : String} {l : List String}
    (h : c ∉ l) (n : ℕ) : alookupS c (idTableAux n l) = none := by
  induction l generalizing n with
  | nil => rfl
  | cons d ds ih =>
    simp only [idTableAux, alookupS]
    rw [if_neg (fun hd : d = c => h (hd ▸ List.mem_cons_self d ds))]
    exact ih (fun hc => h (List.mem_cons_of_mem d hc)) (n + 1)

theorem alookupS_idTable_of_mem {c : String} {codes : List String}
    (h : c ∈ codes) : alookupS c (idTable codes) = some (rankOf c codes) := by
  unfold idTable rankOf
  rw [alookupS_idTableAux_of_mem ((mem_firstOcc codes c).mpr h) 1, Nat.add_comm]

theorem alookupS_idTable_of_not_mem {c : String} {codes : List String}
    (h : c ∉ codes) : alookupS c (idTable codes) = none :=
  alookupS_idTableAux_of_not_mem (fun hc => h ((mem_firstOcc codes c).mp hc)) 1

theorem alookupS_append_of_none {c : String} {m1 : List (String × ℕ)}
    (m2 : List (String × ℕ)) (h : alookupS c m1 = none) :
    alookupS c (m1 ++ m2) = alookupS c m2 := by
  induction m1 with
  | nil => rfl
  | cons e m ih =>
    obtain ⟨d, v⟩ := e
    simp only [List.cons_append, alookupS] at h ⊢
    split at h
    · exact absurd h (by simp)
    · next hd => rw [if_neg hd]; exact ih h

/-- Registration is append-only: an assigned ID survives any extension of the
code sequence. -/
theorem alookupS_idTable_stable {c : String} {codes : List String} {v : ℕ}
    (h : alookupS c (idTable codes) = some v) (more : List String) :
    alookupS c (idTable (codes ++ more)) = some v := by
  induction more generalizing codes with
  | nil => simpa using h
  | cons m ms ih =>
    have hmem : c ∈ codes := by
      by_contra hc
      rw [alookupS_idTable_of_not_mem hc] at h
      exact absurd h (by simp)
    have h1 : alookupS c (idTable (codes ++ [m])) = some v := by
      rw [alookupS_idTable_of_mem (List.mem_append_left [m] hmem)]
      rw [alookupS_idTable_of_mem hmem] at h
      rw [rankOf_stable m hmem, h]
    have h2 := ih h1
    rwa [List.append_assoc, List.singleton_append] at h2

theorem freqTableAux_congr {codes1 codes2 : List String} {l : List String}
    (h : ∀ d ∈ l, codes1.count d = codes2.count d) (n : ℕ) :
    freqTableAux codes1 n l = freqTableAux codes2 n l := by
  induction l generalizing n with
  | nil => rfl
  | cons d ds ih =>
    simp only [freqTableAux]
    rw [h d (List.mem_cons_self d ds),
      ih (fun e he => h e (List.mem_cons_of_mem d he)) (n + 1)]

theorem freqTableAux_append (codes : List String) (n : ℕ) (l l' : List String) :
    freqTableAux codes n (l ++ l') =
      freqTableAux codes n l ++ freqTableAux codes (n + l.length) l' := by
  induction l generalizing n with
  | nil => simp [freqTableAux]
  | cons c cs ih =>
    simp only [List.cons_append, freqTableAux, List.length_cons, List.append_eq]
    rw [ih (n + 1), show n + 1 + cs.length = n + (cs.length + 1) by omega]

theorem alookupN_freqTableAux_of_gt {k n : ℕ} {codes l : List String}
    (h : ∀ i, n ≤ i → i < n + l.length → i ≠ k) :
    alookupN k (freqTableAux codes n l) = none := by
  induction l generalizing n with
  | nil => rfl
  | cons d ds ih =>
    simp only [freqTableAux, alookupN]
    rw [if_neg (h n (Nat.le_refl n) (by simp) )]
    exact ih fun i h1 h2 => h i (by omega) (by simp at h2 ⊢; omega)

theorem alookupN_freqTableAux_of_mem {c : String} {l : List String} (h : c ∈ l)
    (codes : List String) (n : ℕ) :
    alookupN (n + firstIdx c l) (freqTableAux codes n l) = some (codes.count c) := by
  induction l generalizing n with
  | nil => cases h
  | cons d ds ih =>
    simp only [freqTableAux, alookupN, firstIdx]
    split
    · next hd => simp [hd]
    · next hd =>
      rcases List.mem_cons.mp h with rfl | h'
      · exact absurd rfl hd
      · rw [if_neg (by omega)]
        have h2 := ih h' (n + 1)
        rwa [show n + 1 + firstIdx c ds = n + (firstIdx c ds + 1) by omega] at h2

theorem bump_of_alookupN_none {k : ℕ} {m : List (ℕ × ℕ)}
    (h : alookupN k m = none) : bump k m = m ++ [(k, 1)] := by
  induction m with
  | nil => rfl
  | cons e m ih =>
    obtain ⟨d, v⟩ := e
    simp only [alookupN] at h
    split at h
    · exact absurd h (by simp)
    · next hd => simp only [bump, List.cons_append]; rw [if_neg hd, ih h]

theorem count_append_one (codes : List String) (c d : String) :
    (codes ++ [c]).count d = codes.count d + if d = c then 1 else 0 := by
  rw [List.count_append]
  congr 1
  by_cases hd : d = c
  · subst hd; simp
  · simp [List.count_cons, hd]

theorem count_eq_of_not_mem_one {e d : String} {codes : List String}
    (h : e ≠ d) : (codes ++ [d]).count e = codes.count e := by
  rw [count_append_one, if_neg h, Nat.add_zero]

theorem bump_freqTableAux_mem {c : String} {l : List String} (hnd : l.Nodup)
    (h : c ∈ l) (codes : List String) (n : ℕ) :
    bump (n + firstIdx c l) (freqTableAux codes n l) =
      freqTableAux (codes ++ [c]) n l := by
  induction l generalizing n with
  | nil => cases h
  | cons d ds ih =>
    rcases eq_or_ne d c with rfl | hd
    · have hds : d ∉ ds := (List.nodup_cons.mp hnd).1
      have h0 : n + firstIdx d (d :: ds) = n := by simp [firstIdx]
      have h1 : freqTableAux codes n (d :: ds) =
          (n, codes.count d) :: freqTableAux codes (n + 1) ds := rfl
      have h2 : freqTableAux (codes ++ [d]) n (d :: ds) =
          (n, (codes ++ [d]).count d) :: freqTableAux (codes ++ [d]) (n + 1) ds := rfl
      have h3 : bump n ((n, codes.count d) :: freqTableAux codes (n + 1) ds) =
          (n, codes.count d + 1) :: freqTableAux codes (n + 1) ds := by
        simp [bump]
      rw [h0, h1, h2, h3, count_append_one, if_pos rfl,
        freqTableAux_congr (fun e he => (count_eq_of_not_mem_one
          (fun hed : e = d => hds (hed ▸ he))).symm) (n + 1)]
    · have h' : c ∈ ds := (List.mem_cons.mp h).resolve_left fun e => hd e.symm
      have h0 : n + firstIdx c (d :: ds) = n + 1 + firstIdx c ds := by
        rw [show firstIdx c (d :: ds) = firstIdx c ds + 1 from by
          simp [firstIdx, hd]]
        omega
      have h1 : freqTableAux codes n (d :: ds) =
          (n, codes.count d) :: freqTableAux codes (n + 1) ds := rfl
      have h2 : freqTableAux (codes ++ [c]) n (d :: ds) =
          (n, (codes ++ [c]).count d) :: freqTableAux (codes ++ [c]) (n + 1) ds := rfl
      have h3 : bump (n + 1 + firstIdx c ds)
            ((n, codes.count d) :: freqTableAux codes (n + 1) ds) =
          (n, codes.count d) ::
            bump (n + 1 + firstIdx c ds) (freqTableAux codes (n + 1) ds) := by
        simp only [bump]
        rw [if_neg (by omega)]
      rw [h0, h1, h2, h3, count_eq_of_not_mem_one hd,
        ih (List.nodup_cons.mp hnd).2 h' (n + 1)]

theorem idTable_append_one_mem {c : String} {codes : List String}
    (hc : c ∈ codes) : idTable (codes ++ [c]) = idTable codes := by
  unfold idTable
  rw [firstOcc_append_one, if_pos hc]

theorem idTable_append_one_new {c : String} {codes : List String}
    (hc : c ∉ codes) :
    idTable (codes ++ [c]) =
      idTable codes ++ [(c, (idTable codes).length + 1)] := by
  unfold idTable
  rw [firstOcc_append_one, if_neg hc, idTableAux_append, idTableAux_length]
  simp [idTableAux, Nat.add_comm]

theorem rankOf_append_one_new {c : String} {codes : List String}
    (hc : c ∉ codes) :
    rankOf c (codes ++ [c]) = (firstOcc codes).length + 1 := by
  unfold rankOf
  rw [firstOcc_append_one, if_neg hc,
    firstIdx_append_self (fun h => hc ((mem_firstOcc codes c).mp h))]

theorem freqTable_append_one (codes : List String) (c : String) :
    freqTable (codes ++ [c]) =
      bump (rankOf c (codes ++ [c])) (freqTable codes) := by
  by_cases hc : c ∈ codes
  · rw [rankOf_stable c hc]
    unfold freqTable rankOf
    rw [firstOcc_append_one, if_pos hc,
      Nat.add_comm (firstIdx c (firstOcc codes)) 1]
    exact (bump_freqTableAux_mem (nodup_firstOcc codes)
      ((mem_firstOcc codes c).mpr hc) codes 1).symm
  · have hfo : c ∉ firstOcc codes := fun h => hc ((mem_firstOcc codes c).mp h)
    have hnone : alookupN ((firstOcc codes).length + 1)
        (freqTableAux codes 1 (firstOcc codes)) = none :=
      alookupN_freqTableAux_of_gt (fun i h1 h2 => by omega)
    have hcount : (codes ++ [c]).count c = 1 := by
      rw [count_append_one, if_pos rfl, List.count_eq_zero.mpr hc]
    rw [rankOf_append_one_new hc]
    unfold freqTable
    rw [firstOcc_append_one, if_neg hc, freqTableAux_append,
      @freqTableAux_congr (codes ++ [c]) codes (firstOcc codes)
        (fun e he => count_eq_of_not_mem_one
          (fun hec : e = c => hc (hec ▸ (mem_firstOcc codes e).mp he))) 1,
      bump_of_alookupN_none hnone]
    simp only [freqTableAux, hcount]
    rw [Nat.add_comm 1 (firstOcc codes).length]

theorem map_rank_append_one (codes : List String) (c : String) :
    (codes ++ [c]).map (fun d => rankOf d (codes ++ [c])) =
      codes.map (fun d => rankOf d codes) ++ [rankOf c (codes ++ [c])] := by
  rw [List.map_append]
  congr 1
  exact List.map_congr_left fun d hd => rankOf_stable c hd

theorem runLines_append (st : LoadState) (ls1 ls2 : List String) :
    runLines st (ls1 ++ ls2) =
      match runLines st ls1 with
      | Except.error e => Except.error e
      | Except.ok st1 => runLines st1 ls2 := by
  induction ls1 generalizing st with
  | nil => rfl
  | cons x xs ih =>
    simp only [List.cons_append, runLines]
    cases h1 : processLine st x with
    | error e => rfl
    | ok st1 => exact ih st1

theorem eventsOf_append (l1 l2 : List String) :
    eventsOf (l1 ++ l2) = eventsOf l1 ++ eventsOf l2 :=
  List.filterMap_append l1 l2 _

theorem eventsOf_single_none {l : String}
    (h : parse_log_line l = Except.ok none) : eventsOf [l] = [] := by
  simp [eventsOf, List.filterMap_cons, h]

theorem eventsOf_single_some {l : String} {e : ℤ × String}
    (h : parse_log_line l = Except.ok (some e)) : eventsOf [l] = [e] := by
  simp [eventsOf, List.filterMap_cons, h]

/-- The loop of `load_cbs_log` computes the state-free closed form: each
output is a function of the parsed event sequence alone. -/
theorem runLines_ok_spec {ls : List String} {st : LoadState}
    (h : runLines initState ls = Except.ok st) :
    st = stateSpec (eventsOf ls) := by
  induction ls using List.reverseRecOn generalizing st with
  | nil => cases h; rfl
  | append_singleton ls l ih =>
    rw [runLines_append] at h
    cases h0 : runLines initState ls with
    | error e => rw [h0] at h; exact absurd h (by simp)
    | ok st1 =>
      rw [h0] at h
      simp only [runLines] at h
      cases h2 : processLine st1 l with
      | error e => rw [h2] at h; exact absurd h (by simp)
      | ok st2 =>
        rw [h2] at h
        simp only [runLines] at h
        cases h
        have hst1 : st1 = stateSpec (eventsOf ls) := ih h0
        subst hst1
        unfold processLine at h2
        cases h3 : parse_log_line l with
        | error e => rw [h3] at h2; exact absurd h2 (by simp)
        | ok res =>
          rw [h3] at h2
          cases res with
          | none =>
            cases h2
            rw [eventsOf_append, eventsOf_single_none h3, List.append_nil]
          | some ev =>
            obtain ⟨t, c⟩ := ev
            simp only at h2
            cases h2
            rw [eventsOf_append, eventsOf_single_some h3]
            set evs := eventsOf ls with hevs
            set codes := evs.map Prod.snd with hcodes
            have hcodes' : (evs ++ [(t, c)]).map Prod.snd = codes ++ [c] := by
              rw [List.map_append]; rfl
            have hts' : (evs ++ [(t, c)]).map Prod.fst =
                evs.map Prod.fst ++ [t] := by
              rw [List.map_append]; rfl
            by_cases hc : c ∈ codes
            · have hlook : alookupS c (idTable codes) = some (rankOf c codes) :=
                alookupS_idTable_of_mem hc
              simp only [stateSpec, ← hcodes, hcodes', hts', hlook,
                Option.getD_some, LoadState.mk.injEq]
              exact ⟨trivial, by rw [map_rank_append_one, rankOf_stable c hc],
                (idTable_append_one_mem hc).symm,
                by rw [freqTable_append_one, rankOf_stable c hc]⟩
            · have hlook : alookupS c (idTable codes) = none :=
                alookupS_idTable_of_not_mem hc
              have hlook2 : alookupS c
                  (idTable codes ++ [(c, (idTable codes).length + 1)]) =
                  some ((idTable codes).length + 1) := by
                rw [alookupS_append_of_none _ hlook]
                simp [alookupS]
              have hrank : rankOf c (codes ++ [c]) =
                  (idTable codes).length + 1 := by
                rw [rankOf_append_one_new hc]
                unfold idTable
                rw [idTableAux_length]
              simp only [stateSpec, ← hcodes, hcodes', hts', hlook, hlook2,
                Option.getD_some, LoadState.mk.injEq]
              exact ⟨trivial, by rw [map_rank_append_one, hrank],
                (idTable_append_one_new hc).symm,
                by rw [freqTable_append_one, hrank]⟩
theorem alookupN_rank_freqTable {c : String} {codes : List String}
    (hc : c ∈ codes) :
    alookupN (rankOf c codes) (freqTable codes) = some (codes.count c) := by
  unfold freqTable rankOf
  rw [Nat.add_comm (firstIdx c (firstOcc codes)) 1]
  exact alookupN_freqTableAux_of_mem ((mem_firstOcc codes c).mpr hc) codes 1

theorem freq_column_spec (codes : List String) :
    (codes.map fun c => rankOf c codes).map
        (fun id => (alookupN id (freqTable codes)).getD 0) =
      codes.map fun c => codes.count c := by
  rw [List.map_map]
  exact List.map_congr_left fun c hc => by
    simp [Function.comp, alookupN_rank_freqTable hc]

/-- `load_cbs_log`'s successful output is the state-free closed form. -/
theorem loadCbsLog_ok_spec {lines : List String} {cap : ℕ}
    {out : List ℤ × List ℕ × List ℕ} (h : loadCbsLog lines cap = Except.ok out) :
    out = loadSpec lines cap := by
  unfold loadCbsLog at h
  cases h0 : runLines initState (lines.take cap) with
  | error e => rw [h0] at h; exact absurd h (by simp)
  | ok st =>
    rw [h0] at h
    simp only at h
    cases h
    rw [runLines_ok_spec h0]
    unfold loadSpec stateSpec codesOf
    rw [freq_column_spec]

theorem idTable_snd (codes : List String) :
    (idTable codes).map Prod.snd = List.range' 1 (idTable codes).length := by
  unfold idTable
  rw [idTableAux_snd, idTableAux_length]

theorem rankOf_inj {c d : String} {codes : List String} (hc : c ∈ codes)
    (hd : d ∈ codes) (h : rankOf c codes = rankOf d codes) : c = d :=
  firstIdx_inj ((mem_firstOcc codes c).mpr hc) ((mem_firstOcc codes d).mpr hd)
    (Nat.add_right_cancel h)

theorem count_rank_map {c : String} {codes : List String} (hc : c ∈ codes) :
    (codes.map fun d => rankOf d codes).count (rankOf c codes) =
      codes.count c := by
  rw [List.count_eq_countP, List.countP_map, List.count_eq_countP]
  refine List.countP_congr fun d hd => ?_
  simp only [Function.comp]
  rw [beq_iff_eq, beq_iff_eq]
  exact ⟨fun h => rankOf_inj hd hc h, fun h => h ▸ rfl⟩

theorem map_snd_freqTableAux (codes : List String) (n : ℕ) (l : List String) :
    (freqTableAux codes n l).map Prod.snd = l.map fun d => codes.count d := by
  induction l generalizing n with
  | nil => rfl
  | cons d ds ih => simp [freqTableAux, ih]

theorem sum_map_add_nat (l : List String) (f g : String → ℕ) :
    (l.map fun d => f d + g d).sum = (l.map f).sum + (l.map g).sum := by
  induction l with
  | nil => rfl
  | cons d ds ih => simp [ih]; omega

theorem sum_map_ite_eq (l : List String) (c : String) :
    (l.map fun d => if d = c then 1 else 0).sum = l.count c := by
  induction l with
  | nil => rfl
  | cons d ds ih =>
    rw [List.map_cons, List.sum_cons, ih, List.count_cons]
    by_cases hd : d = c
    · subst hd; simp [Nat.add_comm]
    · have hcd : ¬(c = d) := fun h => hd h.symm
      simp [hd, hcd]

theorem sum_counts_firstOcc (codes : List String) :
    ((firstOcc codes).map fun d => codes.count d).sum = codes.length := by
  induction codes using List.reverseRecOn with
  | nil => rfl
  | append_singleton codes c ih =>
    rw [firstOcc_append_one]
    by_cases hc : c ∈ codes
    · rw [if_pos hc,
        List.map_congr_left fun d (hd : d ∈ firstOcc codes) =>
          count_append_one codes c d,
        sum_map_add_nat, sum_map_ite_eq,
        List.count_eq_one_of_mem (nodup_firstOcc codes)
          ((mem_firstOcc codes c).mpr hc), ih]
      simp
    · have h1 : (codes ++ [c]).count c = 1 := by
        rw [count_append_one, if_pos rfl, List.count_eq_zero.mpr hc]
      rw [if_neg hc, List.map_append, List.sum_append,
        List.map_congr_left fun d (hd : d ∈ firstOcc codes) =>
          count_eq_of_not_mem_one
            (fun hdc : d = c => hc (hdc ▸ (mem_firstOcc codes d).mp hd)), ih]
      simp [h1, List.count_eq_zero.mpr hc]

/-- Invariant: the `frequencies` dict's values sum to the number of events. -/
theorem sumVals_freqTable (codes : List String) :
    sumVals (freqTable codes) = codes.length := by
  unfold sumVals freqTable
  rw [map_snd_freqTableAux, sum_counts_firstOcc]

/-! ### Standardization lemmas -/

theorem getD_of_lt {α : Type} [Inhabited α] (l : List α) {i : ℕ}
    (h : i < l.length) (d : α) : l.getD i d = l[i] := by
  simp [List.getD_eq_getElem?_getD, List.getElem?_eq_getElem h]

theorem popVar_nonneg (c : List ℚ) : 0 ≤ popVar c := by
  unfold popVar
  refine div_nonneg (List.sum_nonneg fun x hx => ?_) (by positivity)
  obtain ⟨y, _, rfl⟩ := List.mem_map.mp hx
  positivity

theorem scaleOf_pos (c : List ℚ) : 0 < scaleOf c := by
  unfold scaleOf
  split
  · exact one_pos
  · next h =>
    refine Real.sqrt_pos.mpr ?_
    have h2 : (0 : ℚ) < popVar c := lt_of_le_of_ne (popVar_nonneg c) (Ne.symm h)
    exact_mod_cast h2

theorem ne_nil_of_popVar_pos {c : List ℚ} (h : 0 < popVar c) : c ≠ [] := by
  intro hc
  subst hc
  simp [popVar, popMean] at h

theorem sum_map_div_real (c : List ℚ) (f : ℚ → ℝ) (d : ℝ) :
    (c.map fun x => f x / d).sum = (c.map f).sum / d := by
  induction c with
  | nil => simp
  | cons x xs ih => simp [ih, add_div]

theorem sum_map_sub_const (c : List ℚ) (m : ℝ) :
    (c.map fun x => ((x : ℚ) : ℝ) - m).sum = ((c.sum : ℚ) : ℝ) - c.length * m := by
  induction c with
  | nil => simp
  | cons x xs ih =>
    simp only [List.map_cons, List.sum_cons, ih, List.length_cons]
    push_cast
    ring

theorem sum_standardizeCol {c : List ℚ} (hne : c ≠ []) :
    (standardizeCol c).sum = 0 := by
  unfold standardizeCol
  rw [sum_map_div_real, sum_map_sub_const]
  have hn : (c.length : ℝ) ≠ 0 :=
    Nat.cast_ne_zero.mpr (List.length_pos.mpr hne).ne'
  have hm : ((popMean c : ℚ) : ℝ) = ((c.sum : ℚ) : ℝ) / (c.length : ℝ) := by
    unfold popMean
    push_cast
    ring
  rw [hm]
  field_simp

theorem length_standardizeCol (c : List ℚ) :
    (standardizeCol c).length = c.length := by
  simp [standardizeCol]

theorem rMean_standardizeCol {c : List ℚ} (hne : c ≠ []) :
    rMean (standardizeCol c) = 0 := by
  unfold rMean
  rw [sum_standardizeCol hne, zero_div]

theorem cast_sum_sq (c : List ℚ) (m : ℚ) :
    (((c.map fun x => (x - m) ^ 2).sum : ℚ) : ℝ) =
      (c.map fun x => (((x : ℚ) : ℝ) - ((m : ℚ) : ℝ)) ^ 2).sum := by
  induction c with
  | nil => simp
  | cons x xs ih =>
    simp only [List.map_cons, List.sum_cons]
    push_cast
    rw [← ih]
    push_cast
    ring

theorem sq_scaleOf {c : List ℚ} (h : 0 < popVar c) :
    scaleOf c ^ 2 = ((popVar c : ℚ) : ℝ) := by
  unfold scaleOf
  rw [if_neg (ne_of_gt h)]
  refine Real.sq_sqrt ?_
  exact_mod_cast popVar_nonneg c

theorem rVar_standardizeCol {c : List ℚ} (h : 0 < popVar c) :
    rVar (standardizeCol c) = 1 := by
  have hne : c ≠ [] := ne_nil_of_popVar_pos h
  have hn : (c.length : ℝ) ≠ 0 :=
    Nat.cast_ne_zero.mpr (List.length_pos.mpr hne).ne'
  have hσ : scaleOf c ≠ 0 := ne_of_gt (scaleOf_pos c)
  have hvar : ((popVar c : ℚ) : ℝ) ≠ 0 := by
    have := ne_of_gt h
    exact_mod_cast this
  unfold rVar
  rw [rMean_standardizeCol hne, length_standardizeCol]
  unfold standardizeCol
  rw [List.map_map]
  rw [show ((fun x : ℝ => (x - 0) ^ 2) ∘ fun x : ℚ =>
        (((x : ℚ) : ℝ) - ((popMean c : ℚ) : ℝ)) / scaleOf c) =
      fun x : ℚ =>
        ((((x : ℚ) : ℝ) - ((popMean c : ℚ) : ℝ)) ^ 2) / scaleOf c ^ 2 from
    funext fun x => by rw [Function.comp_apply, sub_zero, div_pow]]
  rw [sum_map_div_real, ← cast_sum_sq]
  have hSQ : (((c.map fun x => (x - popMean c) ^ 2).sum : ℚ) : ℝ) =
      ((popVar c : ℚ) : ℝ) * (c.length : ℝ) := by
    unfold popVar
    push_cast
    field_simp
  rw [hSQ, sq_scaleOf h]
  field_simp

theorem sum_eraseIdx_real (l : List ℝ) :
    ∀ i : ℕ, i < l.length → (l.eraseIdx i).sum = l.sum - l.getD i 0 := by
  induction l with
  | nil => intro i hi; simp at hi
  | cons x xs ih =>
    intro i hi
    cases i with
    | zero => simp [List.eraseIdx]
    | succ i =>
      have hi' : i < xs.length := by simpa using hi
      simp only [List.eraseIdx, List.sum_cons, ih i hi']
      have : (x :: xs).getD (i + 1) 0 = xs.getD i 0 := rfl
      rw [this]
      ring

/-- Removing one row from a standardized column whose removed entry is nonzero
leaves a nonzero training-set mean. -/
theorem rMean_eraseIdx_ne_zero {c : List ℚ} {i : ℕ} (hi : i < c.length)
    (hlen : 1 < c.length) (hvar : 0 < popVar c)
    (hne : c.getD i 0 ≠ popMean c) :
    rMean ((standardizeCol c).eraseIdx i) ≠ 0 := by
  have hσ : scaleOf c ≠ 0 := ne_of_gt (scaleOf_pos c)
  have hasne : c ≠ [] := ne_nil_of_popVar_pos hvar
  have hstd : (standardizeCol c).getD i 0 =
      (((c.getD i 0 : ℚ) : ℝ) - ((popMean c : ℚ) : ℝ)) / scaleOf c := by
    have h1 : i < (standardizeCol c).length := by
      rwa [length_standardizeCol]
    rw [getD_of_lt _ h1, getD_of_lt _ hi]
    unfold standardizeCol
    rw [List.getElem_map]
  have hstdne : (standardizeCol c).getD i 0 ≠ 0 := by
    rw [hstd]
    refine div_ne_zero (fun h0 => hne ?_) hσ
    have : ((c.getD i 0 : ℚ) : ℝ) = ((popMean c : ℚ) : ℝ) := by linarith
    exact_mod_cast this
  have hlen' : i < (standardizeCol c).length := by rwa [length_standardizeCol]
  unfold rMean
  rw [sum_eraseIdx_real _ i hlen', sum_standardizeCol hasne, zero_sub]
  refine div_ne_zero (neg_ne_zero.mpr hstdne) ?_
  rw [List.length_eraseIdx, if_pos hlen', length_standardizeCol]
  have : 0 < c.length - 1 := by omega
  positivity

/-! ### Percentile / labeling lemmas -/

theorem sorted_getD_le {s : List ℚ} (hs : List.Sorted (· ≤ ·) s) {i j : ℕ}
    (hij : i ≤ j) (hj : j < s.length) : s.getD i 0 ≤ s.getD j 0 := by
  have hi : i < s.length := lt_of_le_of_lt hij hj
  rw [getD_of_lt _ hi, getD_of_lt _ hj]
  exact hs.rel_get_of_le (a := ⟨i, hi⟩) (b := ⟨j, hj⟩) hij

theorem fh_le_m (m : ℕ) : 95 * m / 100 ≤ m := by omega

theorem ch_le_m (m : ℕ) : (95 * m + 99) / 100 ≤ m := by omega

theorem fh_le_ch (m : ℕ) : 95 * m / 100 ≤ (95 * m + 99) / 100 :=
  Nat.div_le_div_right (Nat.le_add_right _ 99)

/-- `np.percentile(_, 95)` is at least the order statistic at the floor index. -/
theorem sorted_fh_le_percentile95 {l : List ℚ} (hne : l ≠ []) :
    (l.insertionSort (· ≤ ·)).getD (95 * (l.length - 1) / 100) 0 ≤
      percentile95 l := by
  unfold percentile95
  have hsort : List.Sorted (· ≤ ·) (l.insertionSort (· ≤ ·)) :=
    List.sorted_insertionSort (· ≤ ·) l
  have hlen : (l.insertionSort (· ≤ ·)).length = l.length :=
    List.length_insertionSort (· ≤ ·) l
  have hm : l.length - 1 < l.length := by
    have := List.length_pos.mpr hne
    omega
  have hch : (95 * (l.length - 1) + 99) / 100 < (l.insertionSort (· ≤ ·)).length := by
    rw [hlen]
    exact lt_of_le_of_lt (ch_le_m _) hm
  have hgap : (0 : ℚ) ≤
      ((95 * (l.length - 1) : ℕ) : ℚ) / 100 - ((95 * (l.length - 1) / 100 : ℕ) : ℚ) := by
    have := Nat.cast_div_le (α := ℚ) (m := 95 * (l.length - 1)) (n := 100)
    push_cast at this ⊢
    linarith
  have hdiff : (0 : ℚ) ≤
      (l.insertionSort (· ≤ ·)).getD ((95 * (l.length - 1) + 99) / 100) 0 -
        (l.insertionSort (· ≤ ·)).getD (95 * (l.length - 1) / 100) 0 :=
    sub_nonneg.mpr (sorted_getD_le hsort (fh_le_ch _) hch)
  nlinarith [mul_nonneg hgap hdiff]

theorem countP_gt_le_of_sorted {s : List ℚ} (hs : List.Sorted (· ≤ ·) s)
    (b : ℚ) : ∀ i : ℕ, i < s.length → s.getD i 0 ≤ b →
    s.countP (fun e => decide (b < e)) ≤ s.length - i - 1 := by
  induction s with
  | nil => intro i hi; simp at hi
  | cons x xs ih =>
    intro i hi hb
    cases i with
    | zero =>
      have hx : ¬(b < x) := not_lt.mpr (by simpa using hb)
      rw [List.countP_cons_of_neg _ _ (by simpa using hx)]
      simpa using List.countP_le_length (p := fun e => decide (b < e)) (l := xs)
    | succ i =>
      have hi' : i < xs.length := by simpa using hi
      have hgi : (x :: xs).getD (i + 1) 0 = xs.getD i 0 := rfl
      rw [hgi] at hb
      have hmem : xs.getD i 0 ∈ xs := by
        rw [getD_of_lt _ hi']
        exact List.getElem_mem hi'
      have hx : x ≤ b :=
        le_trans (List.rel_of_sorted_cons hs _ hmem) hb
      have hxb : ¬(b < x) := not_lt.mpr hx
      rw [List.countP_cons_of_neg _ _ (by simpa using hxb)]
      have := ih hs.tail i hi' hb
      simpa using this

/-- At most `(n-1) - ⌊0.95 (n-1)⌋` training errors strictly exceed the
95th-percentile threshold. -/
theorem count_gt_percentile95_le {l : List ℚ} (hne : l ≠ []) :
    l.countP (fun e => decide (percentile95 l < e)) ≤
      (l.length - 1) - 95 * (l.length - 1) / 100 := by
  have hperm : List.Perm (l.insertionSort (· ≤ ·)) l :=
    List.perm_insertionSort (· ≤ ·) l
  rw [← hperm.countP_eq]
  have hsort : List.Sorted (· ≤ ·) (l.insertionSort (· ≤ ·)) :=
    List.sorted_insertionSort (· ≤ ·) l
  have hlen : (l.insertionSort (· ≤ ·)).length = l.length :=
    List.length_insertionSort (· ≤ ·) l
  have hnpos : 0 < l.length := List.length_pos.mpr hne
  have hfh : 95 * (l.length - 1) / 100 < (l.insertionSort (· ≤ ·)).length := by
    rw [hlen]
    exact lt_of_le_of_lt (fh_le_m _) (by omega)
  have h := countP_gt_le_of_sorted hsort (percentile95 l)
    (95 * (l.length - 1) / 100) hfh (sorted_fh_le_percentile95 hne)
  rw [hlen] at h
  omega

/-! ### Remaining support lemmas -/

theorem eventsOf_length (ls : List String) :
    (eventsOf ls).length = ls.countP isEventLine := by
  induction ls with
  | nil => rfl
  | cons l ls ih =>
    rw [show eventsOf (l :: ls) = eventsOf [l] ++ eventsOf ls from
      eventsOf_append [l] ls]
    cases h : parse_log_line l with
    | error e =>
      have h1 : eventsOf [l] = [] := by simp [eventsOf, List.filterMap_cons, h]
      have h2 : isEventLine l = false := by simp [isEventLine, h]
      simp [h1, h2, List.countP_cons, ih]
    | ok o =>
      cases o with
      | none =>
        have h1 : eventsOf [l] = [] := eventsOf_single_none h
        have h2 : isEventLine l = false := by simp [isEventLine, h]
        simp [h1, h2, List.countP_cons, ih]
      | some e =>
        have h1 : eventsOf [l] = [e] := eventsOf_single_some h
        have h2 : isEventLine l = true := by simp [isEventLine, h]
        simp [h1, h2, List.countP_cons, ih]

theorem runLines_no_events {ls : List String} (st : LoadState)
    (h : ∀ l ∈ ls, parse_log_line l = Except.ok none) :
    runLines st ls = Except.ok st := by
  induction ls with
  | nil => rfl
  | cons l ls ih =>
    unfold runLines processLine
    rw [h l (List.mem_cons_self l ls)]
    exact ih fun x hx => h x (List.mem_cons_of_mem l hx)

/-! ## Claim theorems -/

/-- C1 (code bug): when zero events are parsed, `load_cbs_log` succeeds with
three empty sequences — no descriptive diagnostic is raised at the
feature-building boundary; the degenerate empty matrix flows on into
`scaler.fit_transform`, where the failure would surface inside library code. -/
theorem c1_zero_events_no_boundary_diagnostic :
    ∀ (lines : List String) (cap : ℕ),
      (∀ l ∈ lines.take cap, parse_log_line l = Except.ok none) →
      loadCbsLog lines cap = Except.ok ([], [], []) := by
  intro lines cap h
  unfold loadCbsLog
  rw [runLines_no_events initState h]
  rfl

/-- Witness for C1: the script's default cap with a single non-matching line. -/
theorem c1_witness :
    loadCbsLog ["Loading repair results."] 5000000000000000000000000 =
      Except.ok ([], [], []) :=
  c1_zero_events_no_boundary_diagnostic _ _ (by
    intro l hl
    rcases List.mem_singleton.mp (by simpa using hl) with rfl
    rfl)

/-- C3 (amended): `parse_log_line` returns a non-absent pair exactly for the
leftmost pattern match, provided *that* match's timestamp strictly parses
(the code otherwise raises, see C4); the returned code keeps the
`HRESULT = 0x` head or is one of the two keywords; a line with no pattern
occurrence at any position yields `(None, None)` without raising. -/
theorem c3_parser_amended :
    ∀ line : String,
      ((∀ p, tryMatchAt (line.data.drop p) = none) →
        parse_log_line line = Except.ok none) ∧
      (∀ ts code, searchEvent line.data = some (ts, code) →
        ∀ f, strptimeTs ts = some f →
          parse_log_line line = Except.ok (some (toEpoch f, String.mk code)) ∧
            markerShapeP code) ∧
      (∀ p r, tryMatchAt (line.data.drop p) = some r →
        ∃ ts code, searchEvent line.data = some (ts, code)) := by
  intro line
  refine ⟨?_, ?_, ?_⟩
  · intro h
    unfold parse_log_line
    rw [(searchEvent_eq_none_iff line.data).mpr h]
  · intro ts code hse f hf
    constructor
    · unfold parse_log_line
      simp only [hse, hf]
    · obtain ⟨p, hp⟩ := searchEvent_some_exists hse
      exact tryMatchAt_shape hp
  · intro p r h
    cases hse : searchEvent line.data with
    | none =>
      exact absurd ((searchEvent_eq_none_iff line.data).mp hse p) (h ▸ by simp)
    | some r' =>
      refine ⟨r'.1, r'.2, ?_⟩
      rfl

/-- Counterexample to C3 as stated: `cexLine` contains a valid timestamp
followed by a marker, yet the parser raises instead of returning the pair. -/
theorem c3_counterexample :
    containsValidEvent cexLine = true ∧
      parse_log_line cexLine =
        Except.error "ValueError: time data does not match format" :=
  ⟨rfl, rfl⟩

/-- Witness for C3 (amended) on a concrete `HRESULT` line. -/
theorem c3_witness :
    parse_log_line demoLine =
        Except.ok (some (1577934245, "HRESULT = 0xc0150004")) ∧
      markerShapeP "HRESULT = 0xc0150004".data :=
  (c3_parser_amended demoLine).2.1 _ _ rfl _ rfl

/-- C4: a line whose leftmost pattern match carries a timestamp that fails
strict parsing makes `parse_log_line` raise, and any such line inside the
scanned range makes the whole load fail — it is never silently skipped. -/
theorem c4_malformed_timestamp_fatal :
    (∀ (line : String) (ts code : List Char),
        searchEvent line.data = some (ts, code) → strptimeTs ts = none →
        parse_log_line line =
          Except.error "ValueError: time data does not match format") ∧
      ∀ (lines : List String) (cap : ℕ) (l e : String),
        l ∈ lines.take cap → parse_log_line l = Except.error e →
        ∀ out, loadCbsLog lines cap ≠ Except.ok out := by
  constructor
  · intro line ts code hse hf
    unfold parse_log_line
    simp only [hse, hf]
  · intro lines cap l e hmem he out hok
    unfold loadCbsLog at hok
    cases h0 : runLines initState (lines.take cap) with
    | error e' => rw [h0] at hok; exact absurd hok (by simp)
    | ok st => exact runLines_ne_ok_of_error hmem he initState st h0

/-- Witness for C4: month 13 raises and kills the load. -/
theorem c4_witness :
    parse_log_line badTsLine =
        Except.error "ValueError: time data does not match format" ∧
      loadCbsLog [badTsLine] 5 ≠ Except.ok ([], [], []) :=
  ⟨c4_malformed_timestamp_fatal.1 badTsLine _ _ rfl rfl,
   c4_malformed_timestamp_fatal.2 [badTsLine] 5 badTsLine _ (by simp)
     (c4_malformed_timestamp_fatal.1 badTsLine _ _ rfl rfl) ([], [], [])⟩

/-- C10: when the parser returns an event, the code text is the marker at the
*least* gap after the matched timestamp — no shorter gap admits any marker,
and the consumed gap contains no newline; the choice is position-based. -/
theorem c10_earliest_marker :
    ∀ (line : String) (t : ℤ) (code : String),
      parse_log_line line = Except.ok (some (t, code)) →
      ∃ p ts rest, tsShape (line.data.drop p) = some (ts, rest) ∧
        ∃ g, g ≤ rest.length ∧
          matchMarker (prevAt (lastDigit ts) rest g) (rest.drop g) =
            some code.data ∧
          (∀ j, j < g →
            matchMarker (prevAt (lastDigit ts) rest j) (rest.drop j) =
              none) ∧
          (∀ j, j < g → rest.getD j ' ' ≠ '\n') := by
  intro line t code h
  unfold parse_log_line at h
  cases hse : searchEvent line.data with
  | none => simp [hse] at h
  | some r =>
    obtain ⟨ts0, code0⟩ := r
    simp only [hse] at h
    cases hf : strptimeTs ts0 with
    | none => simp [hf] at h
    | some f =>
      simp only [hf, Except.ok.injEq, Option.some.injEq, Prod.mk.injEq] at h
      obtain ⟨-, rfl⟩ := h
      obtain ⟨p, hp⟩ := searchEvent_some_exists hse
      unfold tryMatchAt at hp
      cases hts : tsShape (line.data.drop p) with
      | none => simp [hts] at hp
      | some tr =>
        obtain ⟨ts1, rest⟩ := tr
        simp only [hts] at hp
        cases hfm : findMarker (lastDigit ts1) rest with
        | none => exact absurd hp (by simp [hfm])
        | some code1 =>
          simp only [hfm, Option.some.injEq, Prod.mk.injEq] at hp
          obtain ⟨rfl, rfl⟩ := hp
          obtain ⟨g, hg, hm, hmin, hgap⟩ := findMarker_min hfm
          exact ⟨p, ts1, rest, hts, g, hg, hm, hmin, hgap⟩

/-- Witness for C10: with two markers present, `Warning` (the earlier) wins. -/
theorem c10_witness :
    parse_log_line twoMarkerLine =
        Except.ok (some (1577836800, "Warning")) ∧
      ∃ p ts rest, tsShape (twoMarkerLine.data.drop p) = some (ts, rest) ∧
        ∃ g, g ≤ rest.length ∧
          matchMarker (prevAt (lastDigit ts) rest g) (rest.drop g) =
            some ("Warning" : String).data ∧
          (∀ j, j < g →
            matchMarker (prevAt (lastDigit ts) rest j) (rest.drop j) =
              none) ∧
          (∀ j, j < g → rest.getD j ' ' ≠ '\n') :=
  ⟨rfl, c10_earliest_marker twoMarkerLine 1577836800 "Warning" rfl⟩

/-- C6: at every point of the scan the registry's values are exactly the dense
range `1..N` in first-occurrence order (the registry *is* the rank table of the
codes seen so far), and an ID, once assigned, is returned unchanged by every
later lookup of the same code. -/
theorem c6_registry_invariants :
    ∀ (ls : List String) (st : LoadState),
      runLines initState ls = Except.ok st →
      st.errorMap.map Prod.snd = List.range' 1 st.errorMap.length ∧
      st.errorMap = idTable (codesOf ls) ∧
      ∀ c v, alookupS c st.errorMap = some v →
        ∀ more st2, runLines st more = Except.ok st2 →
          alookupS c st2.errorMap = some v := by
  intro ls st h
  have hst := runLines_ok_spec h
  subst hst
  refine ⟨idTable_snd _, rfl, ?_⟩
  intro c v hc more st2 h2
  have hfull : runLines initState (ls ++ more) = Except.ok st2 := by
    rw [runLines_append, h]
    exact h2
  have hst2 := runLines_ok_spec hfull
  subst hst2
  show alookupS c (idTable (codesOf (ls ++ more))) = some v
  have hsplit : codesOf (ls ++ more) = codesOf ls ++ codesOf more := by
    unfold codesOf
    rw [eventsOf_append, List.map_append]
  rw [hsplit]
  exact alookupS_idTable_stable hc (codesOf more)

/-- Witness for C6 on a concrete three-event log. -/
theorem c6_witness :
    (LoadState.mk [1577836800, 1577836801, 1577836802] [1, 2, 1]
          [("Error", 1), ("Warning", 2)] [(1, 2), (2, 1)]).errorMap.map
        Prod.snd =
      List.range' 1 2 ∧
    alookupS "Error"
        (LoadState.mk [1577836800, 1577836801, 1577836802] [1, 2, 1]
          [("Error", 1), ("Warning", 2)] [(1, 2), (2, 1)]).errorMap = some 1 := by
  have h := c6_registry_invariants
    ["2020-01-01 00:00:00 Error x", "junk line", "2020-01-01 00:00:01 Warning",
     "2020-01-01 00:00:02 Error y"]
    (LoadState.mk [1577836800, 1577836801, 1577836802] [1, 2, 1]
      [("Error", 1), ("Warning", 2)] [(1, 2), (2, 1)]) rfl
  exact ⟨h.1, rfl⟩

/-- C7: the output has one row per parsed event in log order; each row's
frequency entry is the *final* total count of that row's error-code ID over the
whole scanned portion, and `column_stack` keeps the fixed column order
(timestamp, ID, frequency). -/
theorem c7_feature_matrix :
    ∀ (lines : List String) (cap : ℕ) (ts : List ℤ) (ids fs : List ℕ),
      loadCbsLog lines cap = Except.ok (ts, ids, fs) →
      ts.length = ids.length ∧ fs.length = ids.length ∧
      ids.length = (lines.take cap).countP isEventLine ∧
      (∀ k, k < ids.length → fs.getD k 0 = ids.count (ids.getD k 0)) ∧
      (∀ k, k < ids.length →
        (columnStack3 ts ids fs).getD k (0, 0, 0) =
          (ts.getD k 0, ids.getD k 0, fs.getD k 0)) := by
  intro lines cap ts ids fs h
  have hspec := loadCbsLog_ok_spec h
  unfold loadSpec at hspec
  rw [Prod.mk.injEq, Prod.mk.injEq] at hspec
  obtain ⟨hts, hids, hfs⟩ := hspec
  subst hts hids hfs
  have hlen1 : (codesOf (lines.take cap)).length = (eventsOf (lines.take cap)).length := by
    unfold codesOf
    rw [List.length_map]
  refine ⟨by simp [hlen1], by simp, ?_, ?_, ?_⟩
  · rw [List.length_map, ← eventsOf_length]
    exact hlen1
  · intro k hk
    rw [List.length_map] at hk
    have hk2 : k < ((codesOf (lines.take cap)).map
        fun c => (codesOf (lines.take cap)).count c).length := by
      rwa [List.length_map]
    have hk3 : k < ((codesOf (lines.take cap)).map
        fun c => rankOf c (codesOf (lines.take cap))).length := by
      rwa [List.length_map]
    rw [getD_of_lt _ hk2, getD_of_lt _ hk3, List.getElem_map, List.getElem_map]
    exact (count_rank_map (List.getElem_mem hk)).symm
  · intro k hk
    rw [List.length_map] at hk
    unfold columnStack3
    have hkz : k < (((eventsOf (lines.take cap)).map Prod.fst).zip
        (((codesOf (lines.take cap)).map fun c => rankOf c (codesOf (lines.take cap))).zip
          ((codesOf (lines.take cap)).map
            fun c => (codesOf (lines.take cap)).count c))).length := by
      simp [List.length_zip, hlen1]
      omega
    rw [getD_of_lt _ hkz, List.getElem_zip, List.getElem_zip]
    have hk1 : k < ((eventsOf (lines.take cap)).map Prod.fst).length := by
      rw [List.length_map]
      omega
    have hk2 : k < ((codesOf (lines.take cap)).map
        fun c => rankOf c (codesOf (lines.take cap))).length := by
      rwa [List.length_map]
    have hk3 : k < ((codesOf (lines.take cap)).map
        fun c => (codesOf (lines.take cap)).count c).length := by
      rwa [List.length_map]
    rw [getD_of_lt _ hk1, getD_of_lt _ hk2, getD_of_lt _ hk3]

/-- Witness for C7 on a concrete log with a repeated code. -/
theorem c7_witness :
    ([1577836800, 1577836801, 1577836802] : List ℤ).length =
        ([1, 2, 1] : List ℕ).length ∧
      ([2, 1, 2] : List ℕ).getD 0 0 = ([1, 2, 1] : List ℕ).count 1 := by
  have h := c7_feature_matrix demoLog 1000 [1577836800, 1577836801, 1577836802]
    [1, 2, 1] [2, 1, 2] rfl
  exact ⟨h.1, h.2.2.2.1 0 (by decide)⟩

/-- C8: after the scan, the values of the `frequencies` dict sum to the number
of parsed events, i.e. to the common length of the output sequences. -/
theorem c8_frequency_sum :
    ∀ (lines : List String) (cap : ℕ) (st : LoadState),
      runLines initState (lines.take cap) = Except.ok st →
      sumVals st.frequencies = st.timestamps.length ∧
      sumVals st.frequencies = st.errorCodes.length ∧
      st.timestamps.length = (lines.take cap).countP isEventLine := by
  intro lines cap st h
  have hst := runLines_ok_spec h
  subst hst
  have h1 : sumVals (freqTable (codesOf (lines.take cap))) =
      (codesOf (lines.take cap)).length := sumVals_freqTable _
  have h2 : (codesOf (lines.take cap)).length =
      (eventsOf (lines.take cap)).length := by
    unfold codesOf
    rw [List.length_map]
  refine ⟨?_, ?_, ?_⟩
  · show sumVals (freqTable (codesOf (lines.take cap))) =
      ((eventsOf (lines.take cap)).map Prod.fst).length
    rw [List.length_map, h1, h2]
  · show sumVals (freqTable (codesOf (lines.take cap))) =
      ((codesOf (lines.take cap)).map
        fun c => rankOf c (codesOf (lines.take cap))).length
    rw [List.length_map, h1]
  · show ((eventsOf (lines.take cap)).map Prod.fst).length =
      (lines.take cap).countP isEventLine
    rw [List.length_map, eventsOf_length]

/-- Witness for C8. -/
theorem c8_witness :
    sumVals (LoadState.mk [1577836800, 1577836801, 1577836802] [1, 2, 1]
        [("Error", 1), ("Warning", 2)] [(1, 2), (2, 1)]).frequencies =
      (LoadState.mk [1577836800, 1577836801, 1577836802] [1, 2, 1]
        [("Error", 1), ("Warning", 2)] [(1, 2), (2, 1)]).timestamps.length :=
  (c8_frequency_sum demoLog 1000
    (LoadState.mk [1577836800, 1577836801, 1577836802] [1, 2, 1]
      [("Error", 1), ("Warning", 2)] [(1, 2), (2, 1)]) rfl).1

/-- C9: the feature builder is deterministic — equal file contents and equal
line caps give equal outputs, and a successful output is the state-free closed
form `loadSpec` of the input alone (no hidden state or randomness). -/
theorem c9_loader_deterministic :
    ∀ (lines1 lines2 : List String) (cap1 cap2 : ℕ),
      lines1 = lines2 → cap1 = cap2 →
      loadCbsLog lines1 cap1 = loadCbsLog lines2 cap2 ∧
      ∀ out, loadCbsLog lines1 cap1 = Except.ok out →
        out = loadSpec lines1 cap1 := by
  intro lines1 lines2 cap1 cap2 h1 h2
  subst h1 h2
  exact ⟨rfl, fun out h => loadCbsLog_ok_spec h⟩

/-- Witness for C9. -/
theorem c9_witness :
    loadCbsLog demoLog 1000 = loadCbsLog demoLog 1000 ∧
      ([1577836800, 1577836801, 1577836802], [1, 2, 1], [2, 1, 2]) =
        loadSpec demoLog 1000 :=
  ⟨(c9_loader_deterministic demoLog demoLog 1000 1000 rfl rfl).1,
   (c9_loader_deterministic demoLog demoLog 1000 1000 rfl rfl).2 _ rfl⟩

/-- C2 (amended): after `fit_transform` on the *full* matrix, each non-constant
column has full-dataset mean 0 and variance 1 (the training split's statistics
are a different matter — see the counterexample). -/
theorem c2_standardized_column :
    ∀ c : List ℚ, 0 < popVar c →
      rMean (standardizeCol c) = 0 ∧ rVar (standardizeCol c) = 1 :=
  fun _ h =>
    ⟨rMean_standardizeCol (ne_nil_of_popVar_pos h), rVar_standardizeCol h⟩

/-- Witness for C2 (amended). -/
theorem c2_witness :
    (0 : ℚ) < popVar [0, 1] ∧
      rMean (standardizeCol [0, 1]) = 0 ∧ rVar (standardizeCol [0, 1]) = 1 :=
  ⟨by norm_num [popVar, popMean],
   c2_standardized_column [0, 1] (by norm_num [popVar, popMean])⟩

/-- Counterexample to C2 as stated: on `cexLog` the pipeline's timestamp
column, standardized on the full matrix, has a *nonzero* mean on the training
split, whichever single row `train_test_split` holds out (`test_size=0.1` on
10 rows removes exactly one row). -/
theorem c2_counterexample :
    loadCbsLog cexLog 100 =
        Except.ok (cexTs, [1, 1, 1, 1, 1, 1, 1, 1, 1, 1],
          [10, 10, 10, 10, 10, 10, 10, 10, 10, 10]) ∧
      0 < popVar cexTsQ ∧
      rMean ((standardizeCol cexTsQ).eraseIdx 0) ≠ 0 ∧
      rMean ((standardizeCol cexTsQ).eraseIdx 1) ≠ 0 ∧
      rMean ((standardizeCol cexTsQ).eraseIdx 2) ≠ 0 ∧
      rMean ((standardizeCol cexTsQ).eraseIdx 3) ≠ 0 ∧
      rMean ((standardizeCol cexTsQ).eraseIdx 4) ≠ 0 ∧
      rMean ((standardizeCol cexTsQ).eraseIdx 5) ≠ 0 ∧
      rMean ((standardizeCol cexTsQ).eraseIdx 6) ≠ 0 ∧
      rMean ((standardizeCol cexTsQ).eraseIdx 7) ≠ 0 ∧
      rMean ((standardizeCol cexTsQ).eraseIdx 8) ≠ 0 ∧
      rMean ((standardizeCol cexTsQ).eraseIdx 9) ≠ 0 := by
  have hvar : 0 < popVar cexTsQ := by
    norm_num [popVar, popMean, cexTsQ, cexTs]
  have hne : ∀ j : Fin 10, cexTsQ.getD (j : ℕ) 0 ≠ popMean cexTsQ := by
    intro j
    fin_cases j <;> norm_num [cexTsQ, cexTs, popMean]
  have hlen : cexTsQ.length = 10 := rfl
  have key : ∀ i : Fin 10,
      rMean ((standardizeCol cexTsQ).eraseIdx (i : ℕ)) ≠ 0 := fun i =>
    rMean_eraseIdx_ne_zero (by rw [hlen]; exact i.isLt)
      (by rw [hlen]; omega) hvar (hne i)
  exact ⟨rfl, hvar, key 0, key 1, key 2, key 3, key 4, key 5, key 6, key 7,
    key 8, key 9⟩

/-- C5 (amended): a row is labeled 1 iff its reconstruction error strictly
exceeds the 95th-percentile threshold of the training errors (train and test
alike); at most `(n-1) - ⌊0.95 (n-1)⌋` training rows can be labeled 1 — for
small `n` this is *not* below 5% of `n` (see the counterexample). -/
theorem c5_labels_threshold :
    ∀ (trainE testE : List ℚ), trainE ≠ [] →
      (∀ k, k < trainE.length →
        ((anomalyLabels trainE testE).1.getD k false = true ↔
          percentile95 trainE < trainE.getD k 0)) ∧
      (∀ k, k < testE.length →
        ((anomalyLabels trainE testE).2.getD k false = true ↔
          percentile95 trainE < testE.getD k 0)) ∧
      (anomalyLabels trainE testE).1.count true ≤
        (trainE.length - 1) - 95 * (trainE.length - 1) / 100 := by
  intro trainE testE hne
  refine ⟨?_, ?_, ?_⟩
  · intro k hk
    have hk' : k <
        (trainE.map fun e => decide (percentile95 trainE < e)).length := by
      rwa [List.length_map]
    show (trainE.map fun e => decide (percentile95 trainE < e)).getD k false =
        true ↔ _
    rw [getD_of_lt _ hk', List.getElem_map, getD_of_lt _ hk]
    exact decide_eq_true_iff
  · intro k hk
    have hk' : k <
        (testE.map fun e => decide (percentile95 trainE < e)).length := by
      rwa [List.length_map]
    show (testE.map fun e => decide (percentile95 trainE < e)).getD k false =
        true ↔ _
    rw [getD_of_lt _ hk', List.getElem_map, getD_of_lt _ hk]
    exact decide_eq_true_iff
  · have h1 : (anomalyLabels trainE testE).1.count true =
        trainE.countP fun e => decide (percentile95 trainE < e) := by
      show (trainE.map fun e => decide (percentile95 trainE < e)).count true = _
      rw [List.count_eq_countP, List.countP_map]
      exact List.countP_congr fun e he => by simp [Function.comp]
    rw [h1]
    exact count_gt_percentile95_le hne

/-- Witness for C5 (amended) on the error vector `[0, 1]`. -/
theorem c5_witness :
    ((anomalyLabels [0, 1] []).1.getD 1 false = true ↔
        percentile95 [0, 1] < ([0, 1] : List ℚ).getD 1 0) ∧
      (anomalyLabels [0, 1] []).1.count true ≤
        ((2 : ℕ) - 1) - 95 * ((2 : ℕ) - 1) / 100 :=
  ⟨(c5_labels_threshold [0, 1] [] (by simp)).1 1 (by norm_num),
   (c5_labels_threshold [0, 1] [] (by simp)).2.2⟩

/-- Counterexample to C5's tail claim as stated: with training errors `[0, 1]`
the threshold is 0.95, one of the two rows (50%) is labeled 1, so it is false
that strictly more than 95% of the training rows escape label 1 (equivalently,
the labeled fraction is not below 5%). -/
theorem c5_counterexample :
    percentile95 [0, 1] = 19 / 20 ∧
      (anomalyLabels [0, 1] []).1 = [false, true] ∧
      ¬(100 * (anomalyLabels [0, 1] []).1.count true < 5 * 2) := by
  have hs : List.insertionSort (· ≤ ·) ([0, 1] : List ℚ) = [0, 1] := by
    norm_num [List.insertionSort, List.orderedInsert]
  have hp : percentile95 [0, 1] = 19 / 20 := by
    norm_num [percentile95, hs, List.getD_cons_zero, List.getD_cons_succ]
  have hlab : (anomalyLabels [0, 1] []).1 = [false, true] := by
    simp only [anomalyLabels, List.map_cons, List.map_nil, hp,
      List.cons.injEq, and_true]
    refine ⟨?_, ?_⟩
    · rw [decide_eq_false_iff_not]
      norm_num
    · rw [decide_eq_true_eq]
      norm_num
  refine ⟨hp, hlab, ?_⟩
  rw [hlab]
  decide

end DedsecAI
